import Mathlib

/-!
Shallow embedding of the `quince` Ronda round engine
(`src/quince/ronda/ronda.py`).

The `Ronda` class owns: the fixed player list, the dealer index, the deck,
the mesa (table cards), the finished flag, the last-picker reference and the
dealt-escoba flag.  Cards, the deck and the players are external
collaborators (`quince.components`, not part of the two source files); their
operations are modelled from the specification where noted.
-/

instance {ε α : Type} [DecidableEq ε] [DecidableEq α] : DecidableEq (Except ε α) := fun a b =>
  match a, b with
  | Except.error e, Except.error e2 =>
    match decEq e e2 with
    | isTrue h => isTrue (by rw [h])
    | isFalse h => isFalse (by intro hc; cases hc; exact h rfl)
  | Except.error _, Except.ok _ => isFalse (by intro hc; cases hc)
  | Except.ok _, Except.error _ => isFalse (by intro hc; cases hc)
  | Except.ok a, Except.ok b =>
    match decEq a b with
    | isTrue h => isTrue (by rw [h])
    | isFalse h => isFalse (by intro hc; cases hc; exact h rfl)

/-- Modelled from the spec: a Card (external collaborator) exposes a point
value (`info()[0]` in the source) and a stable identity usable for equality
and removal from a collection.  We carry an explicit identity tag next to
the point value. -/
structure Card where
  idtag : Nat
  value : Nat
deriving DecidableEq

/-- Modelled from the spec: a Player (external collaborator) owns a mutable
hand, a capture pile ("pila") and, through `pila().add(cards, isEscoba)`,
a count of escoba bonuses. -/
structure PlayerState where
  hand : List Card
  pila : List Card
  escobas : Nat
deriving DecidableEq

instance : Inhabited PlayerState := ⟨⟨[], [], 0⟩⟩

/-- The error outcomes of the engine: `RondaFinishedError` is raised by
`play_turn` after termination; `InvalidMoveError` by the player move
operations on a failed membership validation; `DeckExhaustedError` by
`deck.deal` when fewer cards remain than requested. -/
inductive RondaError where
  | rondaFinished
  | invalidMove
  | deckExhausted
deriving DecidableEq

/-- State of a `Ronda` instance.  Fields mirror the attributes set in
`Ronda.__init__`: `_players`, `_dealer`, `_deck`, `_finished`,
`_last_picked_up`, `_dealt_escoba`, `_mesa`, `_current_player`.
Player references are represented as indices into `players` (the source
stores object references; the players are distinct objects, so index
equality models reference equality). -/
structure Ronda where
  players : List PlayerState
  dealerIdx : Nat
  deck : List Card
  finishedFlag : Bool
  lastPickedUp : Nat
  dealtEscobaFlag : Bool
  mesa : List Card
  currentIdx : Nat
deriving DecidableEq

instance : Inhabited Ronda := ⟨⟨[], 0, [], false, 0, false, [], 0⟩⟩

/-- Replace the element at index `i` by `f` of it (used to model in-place
mutation of one player object inside the fixed player list). -/
def modifyAt (f : α → α) : Nat → List α → List α
  | _, [] => []
  | 0, a :: l => f a :: l
  | n + 1, a :: l => a :: modifyAt f n l

/-- Modelled from the spec: `deck.deal(n)` removes and returns an ordered
sequence of `n` cards, and fails if fewer than `n` remain. -/
def deal (n : Nat) (deck : List Card) : Option (List Card × List Card) :=
  if n ≤ deck.length then some (deck.take n, deck.drop n) else none

/-- `Ronda._deal_hands`: each player in the fixed order of the `players`
list picks up a freshly dealt batch of 3 cards (`plyr.pick_up_hand
(self._deck.deal(3))`; per the spec, `receiveHand` adds the dealt cards to
the hand).  The source also guards `_deal_hands` with a finished check,
which is unreachable at both call sites (construction and the non-finished
branch of `play_turn`), so the guard is kept in the callers. -/
def dealHands : List PlayerState → List Card → Option (List PlayerState × List Card)
  | [], deck => some ([], deck)
  | p :: ps, deck =>
    match deal 3 deck with
    | none => none
    | some (cs, deck1) =>
      match dealHands ps deck1 with
      | none => none
      | some (ps1, deck2) => some ({ p with hand := p.hand ++ cs } :: ps1, deck2)

/-- `Ronda.current_mesa`: returns a copy of the cards on the mesa (a copy
in Python; lists are immutable here, so the list itself). -/
def Ronda.current_mesa (s : Ronda) : List Card := s.mesa

/-- `Ronda.current_player`: the player whose turn it currently is. -/
def Ronda.current_player (s : Ronda) : PlayerState :=
  s.players.getD s.currentIdx default

/-- `Ronda.is_finished`. -/
def Ronda.is_finished (s : Ronda) : Bool := s.finishedFlag

/-- `Ronda.dealt_escoba`. -/
def Ronda.dealt_escoba (s : Ronda) : Bool := s.dealtEscobaFlag

/-- Modelled from the spec: `Player.place_card_on_mesa(mesa, own_card)`
validates that the card is in the hand, then moves it hand → mesa; on a
failed validation it raises `InvalidMoveError` with no mutation
(here: `none`). -/
def place_card_on_mesa (p : PlayerState) (mesa : List Card) (own : Card) :
    Option (PlayerState × List Card) :=
  if own ∈ p.hand then
    some ({ p with hand := p.hand.erase own }, mesa ++ [own])
  else none

/-- Remove the listed cards from the mesa, one occurrence each. -/
def removeCards (mesa : List Card) : List Card → List Card
  | [] => mesa
  | c :: cs => removeCards (mesa.erase c) cs

/-- Modelled from the spec: `Player.pick_up_from_mesa(mesa, own_card,
mesa_cards)` validates that `own_card` is in the hand and that the named
subset of mesa cards is currently on the mesa (a subset: duplicate-free),
then moves `own_card` out of the hand and the named cards off the mesa and
appends all of them to the player's pile as one capture; on a failed
validation it raises `InvalidMoveError` with no mutation (here: `none`). -/
def pick_up_from_mesa (p : PlayerState) (mesa : List Card) (own : Card)
    (mcs : List Card) : Option (PlayerState × List Card) :=
  if own ∈ p.hand ∧ (∀ c ∈ mcs, c ∈ mesa) ∧ mcs.Nodup then
    some ({ p with hand := p.hand.erase own, pila := p.pila ++ own :: mcs },
          removeCards mesa mcs)
  else none

/-- `Ronda.__init__(players, dealer, deck)`: deal 4 cards to the mesa; if
their point values sum to 15, award them (a copy of the mesa) to the
dealer's pila flagged as an escoba and clear the mesa; deal 3 cards to each
player; set the current player to the dealer and advance once.  The dealer
argument (`players.index(dealer)`) is represented directly by its index.
A failing `deck.deal` surfaces as `DeckExhaustedError`. -/
def rondaInit (players : List PlayerState) (dealerIdx : Nat) (deck : List Card) :
    Except RondaError Ronda :=
  match deal 4 deck with
  | none => Except.error RondaError.deckExhausted
  | some (mesa0, deck1) =>
    let escoba : Bool := decide ((mesa0.map Card.value).sum = 15)
    let players1 :=
      if escoba then
        modifyAt (fun p => { p with pila := p.pila ++ mesa0, escobas := p.escobas + 1 })
          dealerIdx players
      else players
    let mesa1 := if escoba then [] else mesa0
    match dealHands players1 deck1 with
    | none => Except.error RondaError.deckExhausted
    | some (players2, deck2) =>
      Except.ok
        { players := players2
          dealerIdx := dealerIdx
          deck := deck2
          finishedFlag := false
          lastPickedUp := dealerIdx
          dealtEscobaFlag := escoba
          mesa := mesa1
          currentIdx := (dealerIdx + 1) % players.length }

/-- The action part of `Ronda.play_turn`: the current player either places
`own_card` on the mesa (when `mesa_cards` is `None` or `[]`) or captures the
named mesa cards with it (updating `_last_picked_up` to the current
player).  Returns the updated player list, the updated mesa and the updated
last-picker index, or `none` on `InvalidMoveError`. -/
def doAction (s : Ronda) (ownCard : Card) (mesaCards : Option (List Card)) :
    Option (List PlayerState × List Card × Nat) :=
  match mesaCards with
  | none =>
    match place_card_on_mesa (s.players.getD s.currentIdx default) s.mesa ownCard with
    | none => none
    | some (p1, mesa1) =>
      some (modifyAt (fun _ => p1) s.currentIdx s.players, mesa1, s.lastPickedUp)
  | some [] =>
    match place_card_on_mesa (s.players.getD s.currentIdx default) s.mesa ownCard with
    | none => none
    | some (p1, mesa1) =>
      some (modifyAt (fun _ => p1) s.currentIdx s.players, mesa1, s.lastPickedUp)
  | some (c :: cs) =>
    match pick_up_from_mesa (s.players.getD s.currentIdx default) s.mesa ownCard
        (c :: cs) with
    | none => none
    | some (p1, mesa1) =>
      some (modifyAt (fun _ => p1) s.currentIdx s.players, mesa1, s.currentIdx)

/-- `Ronda.play_turn(own_card, mesa_cards=None)`: raise `RondaFinishedError`
if finished; perform the action; then branch on `hand_is_done` (the current
player is the dealer and now has an empty hand) and on deck emptiness:
terminate (award the mesa copy to the last picker's pila, set finished,
and do not advance), or redeal and advance, or just advance. -/
def Ronda.play_turn (s : Ronda) (ownCard : Card) (mesaCards : Option (List Card)) :
    Except RondaError Ronda :=
  if s.is_finished then Except.error RondaError.rondaFinished
  else
    match doAction s ownCard mesaCards with
    | none => Except.error RondaError.invalidMove
    | some (ps1, mesa1, last1) =>
      if s.currentIdx = s.dealerIdx ∧ (ps1.getD s.currentIdx default).hand = [] ∧
          s.deck = [] then
        Except.ok { s with
          players := modifyAt (fun p => { p with pila := p.pila ++ mesa1 }) last1 ps1
          mesa := mesa1
          lastPickedUp := last1
          finishedFlag := true }
      else if s.currentIdx = s.dealerIdx ∧ (ps1.getD s.currentIdx default).hand = [] then
        match dealHands ps1 s.deck with
        | none => Except.error RondaError.deckExhausted
        | some (ps2, deck2) =>
          Except.ok { s with
            players := ps2
            deck := deck2
            mesa := mesa1
            lastPickedUp := last1
            currentIdx := (s.currentIdx + 1) % s.players.length }
      else
        Except.ok { s with
          players := ps1
          mesa := mesa1
          lastPickedUp := last1
          currentIdx := (s.currentIdx + 1) % s.players.length }

/-- Players as handed to the constructor by the driver
(`rondarunner.py`): fresh, with empty hand and pile. -/
def freshPlayers (n : Nat) : List PlayerState := List.replicate n default

/-- States reachable from a construction with `n` fresh players, a dealer
who is a member of the player list, and initial deck `deck0`, through any
sequence of successful `play_turn` calls. -/
inductive Reachable (n dealerIdx : Nat) (deck0 : List Card) : Ronda → Prop
  | init : ∀ s, dealerIdx < n →
      rondaInit (freshPlayers n) dealerIdx deck0 = Except.ok s →
      Reachable n dealerIdx deck0 s
  | step : ∀ s ownCard mesaCards s', Reachable n dealerIdx deck0 s →
      Ronda.play_turn s ownCard mesaCards = Except.ok s' →
      Reachable n dealerIdx deck0 s'

/-- Total number of cards in view: deck + all hands + mesa + all piles. -/
def totalCards (s : Ronda) : Nat :=
  s.deck.length + (s.players.map (fun p => p.hand.length)).sum +
    s.mesa.length + (s.players.map (fun p => p.pila.length)).sum

/-! Concrete data for witnesses and counterexamples. -/

/-- A card with identity `i` and point value 1. -/
def cardOne (i : Nat) : Card := ⟨i, 1⟩

/-- A deck of `k` distinct cards, all of point value 1 (the opening 4-card
mesa then sums to 4 ≠ 15). -/
def deckOnes (k : Nat) : List Card := (List.range k).map cardOne

def deck10 : List Card := deckOnes 10

def deck12 : List Card := deckOnes 12

/-- A deck whose first 4 cards sum to 15 (1 + 2 + 5 + 7). -/
def deckEsc : List Card :=
  [⟨0, 1⟩, ⟨1, 2⟩, ⟨2, 5⟩, ⟨3, 7⟩] ++ (List.range 6).map (fun i => ⟨i + 4, 1⟩)

/-- Run one `play_turn`, extracting the successor state (default on error). -/
def stepD (s : Ronda) (oc : Card) (mc : Option (List Card)) : Ronda :=
  (s.play_turn oc mc).toOption.getD default

/-- Two players, dealer 0, ten cards: construction consumes the whole deck. -/
def st0 : Ronda := (rondaInit (freshPlayers 2) 0 deck10).toOption.getD default

def st1 : Ronda := stepD st0 (cardOne 7) none

def st2 : Ronda := stepD st1 (cardOne 4) none

def st3 : Ronda := stepD st2 (cardOne 8) none

def st4 : Ronda := stepD st3 (cardOne 5) none

def st5 : Ronda := stepD st4 (cardOne 9) none

def st6 : Ronda := stepD st5 (cardOne 6) none

/-- Two players, dealer 0, twelve cards: after the first hand cycle the deck
still holds two cards, fewer than the six a redeal needs. -/
def r2st0 : Ronda := (rondaInit (freshPlayers 2) 0 deck12).toOption.getD default

def r2st1 : Ronda := stepD r2st0 (cardOne 7) none

def r2st2 : Ronda := stepD r2st1 (cardOne 4) none

def r2st3 : Ronda := stepD r2st2 (cardOne 8) none

def r2st4 : Ronda := stepD r2st3 (cardOne 5) none

def r2st5 : Ronda := stepD r2st4 (cardOne 9) none

/-! Basic lemmas about the list helpers. -/

theorem getD_of_len_le {α : Type} (l : List α) (i : Nat) (d0 : α) (h : l.length ≤ i) :
    l.getD i d0 = d0 := by
  induction l generalizing i with
  | nil => simp [List.getD]
  | cons a t ih =>
    cases i with
    | zero => simp at h
    | succ j => simpa [List.getD] using ih j (by simpa using h)

theorem replicate_getD {α : Type} (a d0 : α) (n i : Nat) (h : i < n) :
    (List.replicate n a).getD i d0 = a := by
  induction n generalizing i with
  | zero => omega
  | succ m ih =>
    cases i with
    | zero => simp [List.replicate, List.getD]
    | succ j => simpa [List.replicate, List.getD] using ih j (by omega)

theorem modifyAt_length {α : Type} (f : α → α) (i : Nat) (l : List α) :
    (modifyAt f i l).length = l.length := by
  induction l generalizing i with
  | nil => cases i <;> rfl
  | cons a t ih =>
    cases i with
    | zero => simp [modifyAt]
    | succ j => simp [modifyAt, ih]

theorem modifyAt_getD_self {α : Type} (f : α → α) (i : Nat) (l : List α) (d0 : α)
    (h : i < l.length) : (modifyAt f i l).getD i d0 = f (l.getD i d0) := by
  induction l generalizing i with
  | nil => simp at h
  | cons a t ih =>
    cases i with
    | zero => simp [modifyAt, List.getD_cons_zero]
    | succ j =>
      simp only [modifyAt, List.getD_cons_succ]
      exact ih j (by simpa using h)

theorem modifyAt_getD_other {α : Type} (f : α → α) (i j : Nat) (l : List α) (d0 : α)
    (h : j ≠ i) : (modifyAt f i l).getD j d0 = l.getD j d0 := by
  induction l generalizing i j with
  | nil => cases i <;> rfl
  | cons a t ih =>
    cases i with
    | zero =>
      cases j with
      | zero => exact absurd rfl h
      | succ k => simp [modifyAt, List.getD_cons_succ]
    | succ m =>
      cases j with
      | zero => simp [modifyAt, List.getD_cons_zero]
      | succ k =>
        simp only [modifyAt, List.getD_cons_succ]
        exact ih m k (by omega)

theorem modifyAt_map_sum {α : Type} (g : α → Nat) (f : α → α) (i : Nat) (l : List α)
    (d0 : α) (h : i < l.length) :
    ((modifyAt f i l).map g).sum + g (l.getD i d0) = (l.map g).sum + g (f (l.getD i d0)) := by
  induction l generalizing i with
  | nil => simp at h
  | cons a t ih =>
    cases i with
    | zero => simp [modifyAt, List.getD_cons_zero]; omega
    | succ j =>
      have ih2 := ih j (by simpa using h)
      simp only [modifyAt, List.map, List.sum_cons, List.getD_cons_succ] at *
      omega

theorem modifyAt_map_congr {α β : Type} (g : α → β) (f : α → α) (i : Nat) (l : List α)
    (h : ∀ a, g (f a) = g a) : (modifyAt f i l).map g = l.map g := by
  induction l generalizing i with
  | nil => cases i <;> rfl
  | cons a t ih =>
    cases i with
    | zero => simp [modifyAt, h]
    | succ j => simp [modifyAt, ih]

/-! Lemmas about `deal`, `removeCards` and `dealHands`. -/

theorem deal_eq_some {n : Nat} {deck cs deck1 : List Card}
    (h : deal n deck = some (cs, deck1)) :
    n ≤ deck.length ∧ cs = deck.take n ∧ deck1 = deck.drop n := by
  unfold deal at h
  split at h
  · exact ⟨by assumption, by injection h with h2; injection h2 with h3 h4; simp [h3, h4]⟩
  · exact absurd h (by simp)

theorem deal_none {n : Nat} {deck : List Card} (h : deck.length < n) :
    deal n deck = none := by
  unfold deal
  split
  · omega
  · rfl

theorem removeCards_length (cs : List Card) (mesa : List Card)
    (h1 : ∀ c ∈ cs, c ∈ mesa) (h2 : cs.Nodup) :
    (removeCards mesa cs).length + cs.length = mesa.length := by
  induction cs generalizing mesa with
  | nil => simp [removeCards]
  | cons c t ih =>
    have hc : c ∈ mesa := h1 c (by simp)
    have hsub : ∀ x ∈ t, x ∈ mesa.erase c := by
      intro x hx
      have hne : x ≠ c := by
        intro he
        subst he
        exact (List.nodup_cons.mp h2).1 hx
      exact (List.mem_erase_of_ne hne).mpr (h1 x (by simp [hx]))
    have hlen : (mesa.erase c).length = mesa.length - 1 := List.length_erase_of_mem hc
    have hpos : 1 ≤ mesa.length := List.length_pos.mpr (by rintro rfl; simp at hc)
    have := ih (mesa.erase c) hsub (List.nodup_cons.mp h2).2
    simp only [removeCards, List.length_cons]
    omega

/-- Inversion for `dealHands` on a cons cell. -/
theorem dealHands_cons_inv {p : PlayerState} {t : List PlayerState}
    {deck deck2 : List Card} {ps2 : List PlayerState}
    (h : dealHands (p :: t) deck = some (ps2, deck2)) :
    ∃ cs deck1 ps1, deal 3 deck = some (cs, deck1) ∧
      dealHands t deck1 = some (ps1, deck2) ∧
      ps2 = { p with hand := p.hand ++ cs } :: ps1 := by
  unfold dealHands at h
  split at h
  · exact absurd h (by simp)
  · next cs deck1 hd =>
    split at h
    · exact absurd h (by simp)
    · next ps1 deckr hr =>
      refine ⟨cs, deck1, ps1, hd, ?_, ?_⟩
      · injection h with h2
        injection h2 with h3 h4
        rw [← h4]
        exact hr
      · injection h with h2
        injection h2 with h3 h4
        exact h3.symm

theorem dealHands_length {ps ps2 : List PlayerState} {deck deck2 : List Card}
    (h : dealHands ps deck = some (ps2, deck2)) : ps2.length = ps.length := by
  induction ps generalizing deck ps2 deck2 with
  | nil => simp [dealHands] at h; simp [h.1]
  | cons p t ih =>
    obtain ⟨cs, deck1, ps1, hd, hr, hps⟩ := dealHands_cons_inv h
    subst hps
    simpa using ih hr

theorem dealHands_deck {ps ps2 : List PlayerState} {deck deck2 : List Card}
    (h : dealHands ps deck = some (ps2, deck2)) :
    3 * ps.length ≤ deck.length ∧ deck2 = deck.drop (3 * ps.length) := by
  induction ps generalizing deck ps2 deck2 with
  | nil => simp [dealHands] at h; simp [h.2]
  | cons p t ih =>
    obtain ⟨cs, deck1, ps1, hd, hr, hps⟩ := dealHands_cons_inv h
    obtain ⟨hle, hcs, hdk⟩ := deal_eq_some hd
    obtain ⟨ihle, ihdk⟩ := ih hr
    subst hdk
    constructor
    · simp only [List.length_drop] at ihle
      simp only [List.length_cons]
      omega
    · rw [ihdk, List.drop_drop]
      congr 1
      simp only [List.length_cons]
      omega

theorem dealHands_getD {ps ps2 : List PlayerState} {deck deck2 : List Card}
    (h : dealHands ps deck = some (ps2, deck2)) :
    ∀ i, i < ps.length →
      ps2.getD i default =
        { ps.getD i default with
          hand := (ps.getD i default).hand ++ (deck.drop (3 * i)).take 3 } := by
  induction ps generalizing deck ps2 deck2 with
  | nil => intro i hi; simp at hi
  | cons p t ih =>
    obtain ⟨cs, deck1, ps1, hd, hr, hps⟩ := dealHands_cons_inv h
    obtain ⟨hle, hcs, hdk⟩ := deal_eq_some hd
    subst hps hcs hdk
    intro i hi
    cases i with
    | zero => simp [List.getD_cons_zero]
    | succ j =>
      simp only [List.getD_cons_succ]
      rw [ih hr j (by simpa using hi), List.drop_drop]
      have he : 3 + 3 * j = 3 * (j + 1) := by omega
      rw [he]

theorem dealHands_none {ps : List PlayerState} {deck : List Card}
    (h : deck.length < 3 * ps.length) : dealHands ps deck = none := by
  induction ps generalizing deck with
  | nil => simp at h
  | cons p t ih =>
    unfold dealHands
    rcases Nat.lt_or_ge deck.length 3 with h3 | h3
    · rw [deal_none h3]
    · have hd : deal 3 deck = some (deck.take 3, deck.drop 3) := by
        unfold deal
        rw [if_pos h3]
      rw [hd]
      dsimp only
      rw [ih (by simp only [List.length_drop]; simp only [List.length_cons] at h; omega)]

theorem dealHands_sums {ps ps2 : List PlayerState} {deck deck2 : List Card}
    (h : dealHands ps deck = some (ps2, deck2)) :
    (ps2.map (fun p => p.hand.length)).sum + deck2.length =
      (ps.map (fun p => p.hand.length)).sum + deck.length ∧
    ps2.map (fun p => p.pila.length) = ps.map (fun p => p.pila.length) := by
  induction ps generalizing deck ps2 deck2 with
  | nil =>
    simp [dealHands] at h
    simp [h.1, h.2]
  | cons p t ih =>
    obtain ⟨cs, deck1, ps1, hd, hr, hps⟩ := dealHands_cons_inv h
    obtain ⟨hle, hcs, hdk⟩ := deal_eq_some hd
    subst hps hcs hdk
    obtain ⟨ih1, ih2⟩ := ih hr
    constructor
    · simp only [List.map, List.sum_cons, List.length_append, List.length_take,
        List.length_drop] at *
      omega
    · simp only [List.map, ih2]

/-! Modular "distance to the dealer" bookkeeping used for the hand-size
invariant: within one hand cycle the player at distance `n - 1`
(immediately clockwise of the dealer) plays first and the dealer
(distance 0) plays last. -/

/-- Number of turns after player `i`'s turn until (and including) the
dealer's turn, in a round of `n` players with dealer `d`. -/
def distTo (d n i : Nat) : Nat := if i ≤ d then d - i else n - (i - d)

theorem distTo_lt (d n i : Nat) (hd : d < n) (_hi : i < n) : distTo d n i < n := by
  unfold distTo; split <;> omega

theorem distTo_eq_zero (d n i : Nat) (_hd : d < n) (h' : i < n) :
    distTo d n i = 0 ↔ i = d := by
  unfold distTo; split <;> omega

theorem distTo_inj (d n i j : Nat) (_hd : d < n) (hi : i < n) (hj : j < n)
    (hij : i ≠ j) : distTo d n i ≠ distTo d n j := by
  unfold distTo; split <;> split <;> omega

theorem succ_mod {c n : Nat} (hc : c < n) :
    (c + 1) % n = if c + 1 = n then 0 else c + 1 := by
  split
  · next h => rw [h, Nat.mod_self]
  · next h => exact Nat.mod_eq_of_lt (by omega)

theorem distTo_succ (d n c : Nat) (hd : d < n) (hc : c < n) (hne : c ≠ d) :
    distTo d n ((c + 1) % n) = distTo d n c - 1 := by
  rw [succ_mod hc]
  unfold distTo
  split
  · next h => split <;> split <;> omega
  · next h => split <;> split <;> omega

theorem distTo_dealer_succ (d n : Nat) (hd : d < n) :
    distTo d n ((d + 1) % n) = n - 1 := by
  rw [succ_mod hd]
  unfold distTo
  split
  · next h => split <;> omega
  · next h => split <;> omega

/-! Inversion lemmas for the player actions and for `play_turn`. -/

theorem place_some {p : PlayerState} {mesa : List Card} {own : Card}
    {p1 : PlayerState} {mesa1 : List Card}
    (h : place_card_on_mesa p mesa own = some (p1, mesa1)) :
    own ∈ p.hand ∧ p1 = { p with hand := p.hand.erase own } ∧ mesa1 = mesa ++ [own] := by
  unfold place_card_on_mesa at h
  split at h
  · next hm =>
    refine ⟨hm, ?_, ?_⟩
    · injection h with h2
      injection h2 with h3 h4
      exact h3.symm
    · injection h with h2
      injection h2 with h3 h4
      exact h4.symm
  · exact absurd h (by simp)

theorem place_none {p : PlayerState} {mesa : List Card} {own : Card}
    (h : own ∉ p.hand) : place_card_on_mesa p mesa own = none := by
  unfold place_card_on_mesa
  rw [if_neg h]

theorem pick_some {p : PlayerState} {mesa : List Card} {own : Card} {mcs : List Card}
    {p1 : PlayerState} {mesa1 : List Card}
    (h : pick_up_from_mesa p mesa own mcs = some (p1, mesa1)) :
    own ∈ p.hand ∧ (∀ c ∈ mcs, c ∈ mesa) ∧ mcs.Nodup ∧
    p1 = { p with hand := p.hand.erase own, pila := p.pila ++ own :: mcs } ∧
    mesa1 = removeCards mesa mcs := by
  unfold pick_up_from_mesa at h
  split at h
  · next hm =>
    refine ⟨hm.1, hm.2.1, hm.2.2, ?_, ?_⟩
    · injection h with h2
      injection h2 with h3 h4
      exact h3.symm
    · injection h with h2
      injection h2 with h3 h4
      exact h4.symm
  · exact absurd h (by simp)

theorem pick_none {p : PlayerState} {mesa : List Card} {own : Card} {mcs : List Card}
    (h : ¬(own ∈ p.hand ∧ (∀ c ∈ mcs, c ∈ mesa) ∧ mcs.Nodup)) :
    pick_up_from_mesa p mesa own mcs = none := by
  unfold pick_up_from_mesa
  rw [if_neg h]

theorem doAction_some {s : Ronda} {oc : Card} {mc : Option (List Card)}
    {ps1 : List PlayerState} {mesa1 : List Card} {last1 : Nat}
    (h : doAction s oc mc = some (ps1, mesa1, last1)) :
    oc ∈ (s.players.getD s.currentIdx default).hand ∧
    s.currentIdx < s.players.length ∧
    ps1.length = s.players.length ∧
    (∀ j d0, j ≠ s.currentIdx → ps1.getD j d0 = s.players.getD j d0) ∧
    (ps1.getD s.currentIdx default).hand =
      (s.players.getD s.currentIdx default).hand.erase oc ∧
    (last1 = s.lastPickedUp ∨ last1 = s.currentIdx) := by
  have hcur : ∀ p1 : PlayerState,
      oc ∈ (s.players.getD s.currentIdx default).hand →
      ps1 = modifyAt (fun _ => p1) s.currentIdx s.players →
      p1.hand = (s.players.getD s.currentIdx default).hand.erase oc →
      (last1 = s.lastPickedUp ∨ last1 = s.currentIdx) →
      oc ∈ (s.players.getD s.currentIdx default).hand ∧
      s.currentIdx < s.players.length ∧
      ps1.length = s.players.length ∧
      (∀ j d0, j ≠ s.currentIdx → ps1.getD j d0 = s.players.getD j d0) ∧
      (ps1.getD s.currentIdx default).hand =
        (s.players.getD s.currentIdx default).hand.erase oc ∧
      (last1 = s.lastPickedUp ∨ last1 = s.currentIdx) := by
    intro p1 hm hps hhand hlast
    have hlt : s.currentIdx < s.players.length := by
      by_contra hge
      rw [getD_of_len_le _ _ _ (by omega)] at hm
      simp [default] at hm
    subst hps
    refine ⟨hm, hlt, modifyAt_length _ _ _, ?_, ?_, hlast⟩
    · intro j d0 hj
      exact modifyAt_getD_other _ _ _ _ _ hj
    · rw [modifyAt_getD_self _ _ _ _ hlt]
      exact hhand
  cases mc with
  | none =>
    unfold doAction at h
    cases hp : place_card_on_mesa (s.players.getD s.currentIdx default) s.mesa oc with
    | none => rw [hp] at h; exact absurd h (by simp)
    | some v =>
      obtain ⟨p1, m1⟩ := v
      rw [hp] at h
      obtain ⟨hm, hp1, hm1⟩ := place_some hp
      injection h with h2
      injection h2 with h3 h4
      injection h4 with h5 h6
      exact hcur p1 hm h3.symm (by rw [hp1]) (Or.inl h6.symm)
  | some l =>
    cases l with
    | nil =>
      unfold doAction at h
      cases hp : place_card_on_mesa (s.players.getD s.currentIdx default) s.mesa oc with
      | none => rw [hp] at h; exact absurd h (by simp)
      | some v =>
        obtain ⟨p1, m1⟩ := v
        rw [hp] at h
        obtain ⟨hm, hp1, hm1⟩ := place_some hp
        injection h with h2
        injection h2 with h3 h4
        injection h4 with h5 h6
        exact hcur p1 hm h3.symm (by rw [hp1]) (Or.inl h6.symm)
    | cons c cs =>
      unfold doAction at h
      dsimp only at h
      cases hp : pick_up_from_mesa (s.players.getD s.currentIdx default) s.mesa oc
          (c :: cs) with
      | none => rw [hp] at h; exact absurd h (by simp)
      | some v =>
        obtain ⟨p1, m1⟩ := v
        rw [hp] at h
        obtain ⟨hm, hsub, hnd, hp1, hm1⟩ := pick_some hp
        injection h with h2
        injection h2 with h3 h4
        injection h4 with h5 h6
        exact hcur p1 hm h3.symm (by rw [hp1]) (Or.inr h6.symm)

/-- Full inversion for a successful action: it is either a drop or a
capture, with all components determined. -/
theorem doAction_inv {s : Ronda} {oc : Card} {mc : Option (List Card)}
    {ps1 : List PlayerState} {mesa1 : List Card} {last1 : Nat}
    (h : doAction s oc mc = some (ps1, mesa1, last1)) :
    ∃ p1 : PlayerState,
      ps1 = modifyAt (fun _ => p1) s.currentIdx s.players ∧
      (((mc = none ∨ mc = some []) ∧
        oc ∈ (s.players.getD s.currentIdx default).hand ∧
        p1 = { s.players.getD s.currentIdx default with
               hand := (s.players.getD s.currentIdx default).hand.erase oc } ∧
        mesa1 = s.mesa ++ [oc] ∧ last1 = s.lastPickedUp) ∨
       (∃ c cs, mc = some (c :: cs) ∧
        oc ∈ (s.players.getD s.currentIdx default).hand ∧
        (∀ x ∈ c :: cs, x ∈ s.mesa) ∧ (c :: cs).Nodup ∧
        p1 = { s.players.getD s.currentIdx default with
               hand := (s.players.getD s.currentIdx default).hand.erase oc,
               pila := (s.players.getD s.currentIdx default).pila ++ oc :: c :: cs } ∧
        mesa1 = removeCards s.mesa (c :: cs) ∧ last1 = s.currentIdx)) := by
  cases mc with
  | none =>
    unfold doAction at h
    cases hp : place_card_on_mesa (s.players.getD s.currentIdx default) s.mesa oc with
    | none => rw [hp] at h; exact absurd h (by simp)
    | some v =>
      obtain ⟨p1, m1⟩ := v
      rw [hp] at h
      obtain ⟨hm, hp1, hm1⟩ := place_some hp
      injection h with h2
      injection h2 with h3 h4
      injection h4 with h5 h6
      exact ⟨p1, h3.symm, Or.inl ⟨Or.inl rfl, hm, hp1, by rw [← h5, hm1], h6.symm⟩⟩
  | some l =>
    cases l with
    | nil =>
      unfold doAction at h
      dsimp only at h
      cases hp : place_card_on_mesa (s.players.getD s.currentIdx default) s.mesa oc with
      | none => rw [hp] at h; exact absurd h (by simp)
      | some v =>
        obtain ⟨p1, m1⟩ := v
        rw [hp] at h
        obtain ⟨hm, hp1, hm1⟩ := place_some hp
        injection h with h2
        injection h2 with h3 h4
        injection h4 with h5 h6
        exact ⟨p1, h3.symm, Or.inl ⟨Or.inr rfl, hm, hp1, by rw [← h5, hm1], h6.symm⟩⟩
    | cons c cs =>
      unfold doAction at h
      dsimp only at h
      cases hp : pick_up_from_mesa (s.players.getD s.currentIdx default) s.mesa oc
          (c :: cs) with
      | none => rw [hp] at h; exact absurd h (by simp)
      | some v =>
        obtain ⟨p1, m1⟩ := v
        rw [hp] at h
        obtain ⟨hm, hsub, hnd, hp1, hm1⟩ := pick_some hp
        injection h with h2
        injection h2 with h3 h4
        injection h4 with h5 h6
        exact ⟨p1, h3.symm,
          Or.inr ⟨c, cs, rfl, hm, hsub, hnd, hp1, by rw [← h5, hm1], h6.symm⟩⟩

/-- One action conserves the number of cards among hands + mesa + piles. -/
theorem doAction_total {s : Ronda} {oc : Card} {mc : Option (List Card)}
    {ps1 : List PlayerState} {mesa1 : List Card} {last1 : Nat}
    (h : doAction s oc mc = some (ps1, mesa1, last1)) :
    (ps1.map (fun p => p.hand.length)).sum + mesa1.length +
      (ps1.map (fun p => p.pila.length)).sum =
    (s.players.map (fun p => p.hand.length)).sum + s.mesa.length +
      (s.players.map (fun p => p.pila.length)).sum := by
  obtain ⟨hm0, hlt, _, _, _, _⟩ := doAction_some h
  obtain ⟨p1, hps, hcase⟩ := doAction_inv h
  have hsumH := modifyAt_map_sum (fun p => p.hand.length) (fun _ => p1)
    s.currentIdx s.players default hlt
  have hsumP := modifyAt_map_sum (fun p => p.pila.length) (fun _ => p1)
    s.currentIdx s.players default hlt
  rw [← hps] at hsumH hsumP
  dsimp only at hsumH hsumP
  rcases hcase with ⟨hmc, hm, hp1, hmesa, hlast⟩ | ⟨c, cs, hmc, hm, hsub, hnd, hp1, hmesa, hlast⟩
  · have hhand : p1.hand.length + 1 = (s.players.getD s.currentIdx default).hand.length := by
      rw [hp1]
      simp only [List.length_erase_of_mem hm]
      have : 1 ≤ (s.players.getD s.currentIdx default).hand.length :=
        List.length_pos.mpr (by rintro he; rw [he] at hm; simp at hm)
      omega
    have hpila : p1.pila.length = (s.players.getD s.currentIdx default).pila.length := by
      rw [hp1]
    have hmlen : mesa1.length = s.mesa.length + 1 := by rw [hmesa]; simp
    omega
  · have hhand : p1.hand.length + 1 = (s.players.getD s.currentIdx default).hand.length := by
      rw [hp1]
      simp only [List.length_erase_of_mem hm]
      have : 1 ≤ (s.players.getD s.currentIdx default).hand.length :=
        List.length_pos.mpr (by rintro he; rw [he] at hm; simp at hm)
      omega
    have hpila : p1.pila.length =
        (s.players.getD s.currentIdx default).pila.length + (c :: cs).length + 1 := by
      rw [hp1]
      simp
      omega
    have hmlen : mesa1.length + (c :: cs).length = s.mesa.length := by
      rw [hmesa]
      exact removeCards_length _ _ hsub hnd
    omega

theorem play_turn_finished {s : Ronda} (oc : Card) (mc : Option (List Card))
    (h : s.finishedFlag = true) :
    s.play_turn oc mc = Except.error RondaError.rondaFinished := by
  unfold Ronda.play_turn Ronda.is_finished
  simp [h]

theorem play_turn_invalid {s : Ronda} {oc : Card} {mc : Option (List Card)}
    (hF : s.finishedFlag = false) (hA : doAction s oc mc = none) :
    s.play_turn oc mc = Except.error RondaError.invalidMove := by
  unfold Ronda.play_turn Ronda.is_finished
  simp only [hF, hA]
  rfl

/-- Branch structure of a non-failing `play_turn`, with the action result
already fixed. -/
theorem play_turn_eq {s : Ronda} {oc : Card} {mc : Option (List Card)}
    {ps1 : List PlayerState} {mesa1 : List Card} {last1 : Nat}
    (hF : s.finishedFlag = false) (hA : doAction s oc mc = some (ps1, mesa1, last1)) :
    s.play_turn oc mc =
      if s.currentIdx = s.dealerIdx ∧ (ps1.getD s.currentIdx default).hand = [] ∧
          s.deck = [] then
        Except.ok { s with
          players := modifyAt (fun p => { p with pila := p.pila ++ mesa1 }) last1 ps1
          mesa := mesa1
          lastPickedUp := last1
          finishedFlag := true }
      else if s.currentIdx = s.dealerIdx ∧ (ps1.getD s.currentIdx default).hand = [] then
        match dealHands ps1 s.deck with
        | none => Except.error RondaError.deckExhausted
        | some (ps2, deck2) =>
          Except.ok { s with
            players := ps2
            deck := deck2
            mesa := mesa1
            lastPickedUp := last1
            currentIdx := (s.currentIdx + 1) % s.players.length }
      else
        Except.ok { s with
          players := ps1
          mesa := mesa1
          lastPickedUp := last1
          currentIdx := (s.currentIdx + 1) % s.players.length } := by
  unfold Ronda.play_turn Ronda.is_finished
  simp only [hF, hA]
  rfl

/-- A successful `play_turn` starts from a non-finished state and a
successful action. -/
theorem play_turn_ok_start {s : Ronda} {oc : Card} {mc : Option (List Card)} {s' : Ronda}
    (h : s.play_turn oc mc = Except.ok s') :
    s.finishedFlag = false ∧
    ∃ ps1 mesa1 last1, doAction s oc mc = some (ps1, mesa1, last1) := by
  cases hF : s.finishedFlag with
  | true => rw [play_turn_finished oc mc hF] at h; exact absurd h (by simp)
  | false =>
    cases hA : doAction s oc mc with
    | none => rw [play_turn_invalid hF hA] at h; exact absurd h (by simp)
    | some v =>
      obtain ⟨ps1, mesa1, last1⟩ := v
      exact ⟨rfl, ps1, mesa1, last1, rfl⟩

/-- Case analysis on the successor of a successful `play_turn`. -/
theorem play_turn_ok_cases {s : Ronda} {oc : Card} {mc : Option (List Card)} {s' : Ronda}
    {ps1 : List PlayerState} {mesa1 : List Card} {last1 : Nat}
    (hF : s.finishedFlag = false) (hA : doAction s oc mc = some (ps1, mesa1, last1))
    (h : s.play_turn oc mc = Except.ok s') :
    (s.currentIdx = s.dealerIdx ∧ (ps1.getD s.currentIdx default).hand = [] ∧
      s.deck = [] ∧
      s' = { s with
        players := modifyAt (fun p => { p with pila := p.pila ++ mesa1 }) last1 ps1
        mesa := mesa1
        lastPickedUp := last1
        finishedFlag := true }) ∨
    (s.currentIdx = s.dealerIdx ∧ (ps1.getD s.currentIdx default).hand = [] ∧
      s.deck ≠ [] ∧
      ∃ ps2 deck2, dealHands ps1 s.deck = some (ps2, deck2) ∧
        s' = { s with
          players := ps2
          deck := deck2
          mesa := mesa1
          lastPickedUp := last1
          currentIdx := (s.currentIdx + 1) % s.players.length }) ∨
    (¬(s.currentIdx = s.dealerIdx ∧ (ps1.getD s.currentIdx default).hand = []) ∧
      s' = { s with
        players := ps1
        mesa := mesa1
        lastPickedUp := last1
        currentIdx := (s.currentIdx + 1) % s.players.length }) := by
  rw [play_turn_eq hF hA] at h
  split at h
  · next hc =>
    left
    refine ⟨hc.1, hc.2.1, hc.2.2, ?_⟩
    injection h with h2
    exact h2.symm
  · next hc1 =>
    split at h
    · next hc2 =>
      right; left
      have hdk : s.deck ≠ [] := by
        intro he
        exact hc1 ⟨hc2.1, hc2.2, he⟩
      cases hD : dealHands ps1 s.deck with
      | none => rw [hD] at h; exact absurd h (by simp)
      | some w =>
        obtain ⟨ps2, deck2⟩ := w
        rw [hD] at h
        refine ⟨hc2.1, hc2.2, hdk, ps2, deck2, rfl, ?_⟩
        injection h with h2
        exact h2.symm
    · next hc2 =>
      right; right
      refine ⟨hc2, ?_⟩
      injection h with h2
      exact h2.symm

/-! Inversion lemmas for construction. -/

theorem rondaInit_len4 {ps : List PlayerState} {d : Nat} {deck : List Card} {s : Ronda}
    (h : rondaInit ps d deck = Except.ok s) : 4 ≤ deck.length := by
  by_contra h4
  unfold rondaInit at h
  rw [deal_none (by omega)] at h
  exact absurd h (by simp)

/-- Construction unfolded, once the opening deal is known to succeed. -/
theorem rondaInit_eq (ps : List PlayerState) (d : Nat) (deck : List Card)
    (h4 : 4 ≤ deck.length) :
    rondaInit ps d deck =
      (match dealHands
          (if ((deck.take 4).map Card.value).sum = 15 then
            modifyAt (fun p =>
              { p with pila := p.pila ++ deck.take 4, escobas := p.escobas + 1 }) d ps
          else ps) (deck.drop 4) with
      | none => Except.error RondaError.deckExhausted
      | some (ps2, deck2) =>
        Except.ok
          { players := ps2
            dealerIdx := d
            deck := deck2
            finishedFlag := false
            lastPickedUp := d
            dealtEscobaFlag := decide (((deck.take 4).map Card.value).sum = 15)
            mesa := if ((deck.take 4).map Card.value).sum = 15 then [] else deck.take 4
            currentIdx := (d + 1) % ps.length }) := by
  unfold rondaInit
  rw [show deal 4 deck = some (deck.take 4, deck.drop 4) from by
    unfold deal; rw [if_pos h4]]
  dsimp only
  by_cases hs : ((deck.take 4).map Card.value).sum = 15
  · simp only [hs, decide_True, if_true, if_pos]
  · simp only [hs, decide_False, if_false, Bool.false_eq_true]

theorem rondaInit_ok_inv {ps : List PlayerState} {d : Nat} {deck : List Card} {s : Ronda}
    (h : rondaInit ps d deck = Except.ok s) :
    4 ≤ deck.length ∧
    ∃ ps2 deck2,
      dealHands
        (if ((deck.take 4).map Card.value).sum = 15 then
          modifyAt (fun p =>
            { p with pila := p.pila ++ deck.take 4, escobas := p.escobas + 1 }) d ps
        else ps) (deck.drop 4) = some (ps2, deck2) ∧
      s = { players := ps2
            dealerIdx := d
            deck := deck2
            finishedFlag := false
            lastPickedUp := d
            dealtEscobaFlag := decide (((deck.take 4).map Card.value).sum = 15)
            mesa := if ((deck.take 4).map Card.value).sum = 15 then [] else deck.take 4
            currentIdx := (d + 1) % ps.length } := by
  have h4 := rondaInit_len4 h
  rw [rondaInit_eq ps d deck h4] at h
  refine ⟨h4, ?_⟩
  cases hD : dealHands
      (if ((deck.take 4).map Card.value).sum = 15 then
        modifyAt (fun p =>
          { p with pila := p.pila ++ deck.take 4, escobas := p.escobas + 1 }) d ps
      else ps) (deck.drop 4) with
  | none => rw [hD] at h; exact absurd h (by simp)
  | some w =>
    obtain ⟨ps2, deck2⟩ := w
    rw [hD] at h
    refine ⟨ps2, deck2, rfl, ?_⟩
    injection h with h2
    exact h2.symm

/-! The reachable-state invariant: index bounds, the finished state keeps
the dealer as current player, and the hand-size pattern within a cycle. -/

theorem freshPlayers_getD (n i : Nat) (h : i < n) :
    (freshPlayers n).getD i default = default := by
  unfold freshPlayers
  exact replicate_getD _ _ _ _ h

/-- Within a hand cycle all players hold `H` cards except those who have
already played this cycle (those strictly closer to the end of the cycle
than the current player), who hold `H - 1`. -/
def HandsInv (s : Ronda) : Prop :=
  ∃ H, ∀ i, i < s.players.length →
    ((s.players.getD i default).hand).length =
      H - (if distTo s.dealerIdx s.players.length s.currentIdx <
            distTo s.dealerIdx s.players.length i then 1 else 0)

def StateInv (n d : Nat) (s : Ronda) : Prop :=
  s.players.length = n ∧ s.dealerIdx = d ∧ d < n ∧ s.currentIdx < n ∧
  s.lastPickedUp < n ∧
  (s.finishedFlag = true → s.currentIdx = s.dealerIdx) ∧
  (s.finishedFlag = false → HandsInv s)

/-- After a successful construction from fresh players every hand has
exactly 3 cards. -/
theorem rondaInit_hands3 {n d : Nat} {deck : List Card} {s : Ronda}
    (hd : d < n) (h : rondaInit (freshPlayers n) d deck = Except.ok s) :
    ∀ i, i < n → ((s.players.getD i default).hand).length = 3 := by
  obtain ⟨h4, ps2, deck2, hDH, hs⟩ := rondaInit_ok_inv h
  have hlen1 :
      (if (((deck.take 4).map Card.value).sum = 15) then
        modifyAt (fun p =>
          { p with pila := p.pila ++ deck.take 4, escobas := p.escobas + 1 }) d
          (freshPlayers n)
      else freshPlayers n).length = n := by
    split
    · rw [modifyAt_length]; simp [freshPlayers]
    · simp [freshPlayers]
  have hhand0 : ∀ i, i < n →
      ((if (((deck.take 4).map Card.value).sum = 15) then
        modifyAt (fun p =>
          { p with pila := p.pila ++ deck.take 4, escobas := p.escobas + 1 }) d
          (freshPlayers n)
      else freshPlayers n).getD i default).hand = [] := by
    intro i hi
    split
    · by_cases hieq : i = d
      · rw [hieq]
        rw [modifyAt_getD_self _ _ _ _ (by simp [freshPlayers]; omega)]
        dsimp only
        rw [freshPlayers_getD n d hd]
        rfl
      · rw [modifyAt_getD_other _ _ _ _ _ hieq]
        rw [freshPlayers_getD n i hi]
        rfl
    · rw [freshPlayers_getD n i hi]
      rfl
  intro i hi
  subst hs
  dsimp only
  rw [dealHands_getD hDH i (by rw [hlen1]; exact hi)]
  dsimp only
  rw [hhand0 i hi]
  obtain ⟨hle, _⟩ := dealHands_deck hDH
  rw [hlen1] at hle
  simp only [List.nil_append, List.length_take, List.length_drop]
  simp only [List.length_drop] at hle
  omega

theorem reachable_inv {n d : Nat} {deck0 : List Card} {s : Ronda}
    (h : Reachable n d deck0 s) : StateInv n d s := by
  induction h with
  | init s hd hinit =>
    obtain ⟨h4, ps2, deck2, hDH, hs⟩ := rondaInit_ok_inv hinit
    have hn : 0 < n := by omega
    have hlen1 :
        (if (((deck0.take 4).map Card.value).sum = 15) then
          modifyAt (fun p =>
            { p with pila := p.pila ++ deck0.take 4, escobas := p.escobas + 1 }) d
            (freshPlayers n)
        else freshPlayers n).length = n := by
      split
      · rw [modifyAt_length]; simp [freshPlayers]
      · simp [freshPlayers]
    have hlen2 : ps2.length = n := by rw [dealHands_length hDH, hlen1]
    have hfresh : (freshPlayers n).length = n := by simp [freshPlayers]
    have hhands3 := rondaInit_hands3 hd hinit
    subst hs
    refine ⟨by dsimp only; rw [hlen2], rfl, hd, ?_, by dsimp only; exact hd, ?_, ?_⟩
    · dsimp only
      rw [hfresh]
      exact Nat.mod_lt _ hn
    · intro hfin
      exact absurd hfin (by simp)
    · intro _
      refine ⟨3, ?_⟩
      intro i hi
      dsimp only at hi ⊢
      rw [hlen2] at hi
      have h3 := hhands3 i hi
      dsimp only at h3
      rw [hlen2, hfresh]
      have hds : distTo d n ((d + 1) % n) = n - 1 := distTo_dealer_succ d n hd
      have hdi : distTo d n i < n := distTo_lt d n i hd hi
      rw [if_neg (by omega)]
      omega
  | step s oc mc s' hr hstep ih =>
    obtain ⟨hF, ps1, mesa1, last1, hA⟩ := play_turn_ok_start hstep
    obtain ⟨hm, hlt, hlen1, hother, hcurhand, hlast1⟩ := doAction_some hA
    obtain ⟨ihlen, ihdealer, ihd, ihcur, ihlast, ihfin, ihhands⟩ := ih
    obtain ⟨H, hH⟩ := ihhands hF
    have hlast1n : last1 < n := by
      rcases hlast1 with h1 | h1
      · rw [h1]; exact ihlast
      · rw [h1]; exact ihcur
    have hn : 0 < n := by omega
    have hcurH : ((s.players.getD s.currentIdx default).hand).length = H := by
      have hcc := hH s.currentIdx (by omega)
      simpa using hcc
    rcases play_turn_ok_cases hF hA hstep with
      ⟨hcd, hhe, hde, hs'⟩ | ⟨hcd, hhe, hde, ps2, deck2, hDH, hs'⟩ | ⟨hncond, hs'⟩
    · -- termination branch
      subst hs'
      refine ⟨by dsimp only; rw [modifyAt_length, hlen1, ihlen], ihdealer, ihd,
        by dsimp only; exact ihcur, by dsimp only; exact hlast1n, ?_, ?_⟩
      · intro _
        dsimp only
        exact hcd
      · intro hfin
        exact absurd hfin (by simp)
    · -- redeal branch
      subst hs'
      have hlen2 : ps2.length = n := by rw [dealHands_length hDH, hlen1, ihlen]
      have hH1 : H = 1 := by
        have hcur1 : ((ps1.getD s.currentIdx default).hand).length = H - 1 := by
          rw [hcurhand, List.length_erase_of_mem hm, hcurH]
        rw [hhe] at hcur1
        simp only [List.length_nil] at hcur1
        have hpos : 1 ≤ H := by
          rw [← hcurH]
          exact List.length_pos.mpr (by rintro he; rw [he] at hm; simp at hm)
        omega
      have hempty : ∀ i, i < n → (ps1.getD i default).hand = [] := by
        intro i hi
        by_cases hieq : i = s.currentIdx
        · rw [hieq]; exact hhe
        · rw [hother i default hieq]
          have hival := hH i (by omega)
          have hdcur : distTo s.dealerIdx s.players.length s.currentIdx = 0 := by
            rw [hcd]
            simp [distTo]
          have hne0 : distTo s.dealerIdx s.players.length i ≠ 0 := by
            intro h0
            have hid := (distTo_eq_zero s.dealerIdx s.players.length i
              (by omega) (by omega)).mp h0
            rw [← hcd] at hid
            exact hieq hid
          rw [hdcur, if_pos (by omega), hH1] at hival
          exact List.length_eq_zero.mp (by omega)
      refine ⟨by dsimp only; rw [hlen2], ihdealer, ihd, ?_,
        by dsimp only; exact hlast1n, ?_, ?_⟩
      · dsimp only
        rw [ihlen]
        exact Nat.mod_lt _ hn
      · intro hfin
        dsimp only at hfin
        rw [hF] at hfin
        exact absurd hfin (by simp)
      · intro _
        refine ⟨3, ?_⟩
        intro i hi
        dsimp only at hi ⊢
        rw [hlen2] at hi
        rw [dealHands_getD hDH i (by rw [hlen1, ihlen]; exact hi)]
        dsimp only
        rw [hempty i hi]
        obtain ⟨hle, _⟩ := dealHands_deck hDH
        rw [hlen1, ihlen] at hle
        rw [hlen2, ihlen]
        have hds : distTo s.dealerIdx n ((s.currentIdx + 1) % n) = n - 1 := by
          rw [hcd]
          exact distTo_dealer_succ s.dealerIdx n (by omega)
        have hdi : distTo s.dealerIdx n i < n := distTo_lt s.dealerIdx n i (by omega) hi
        rw [if_neg (by omega)]
        simp only [List.nil_append, List.length_take, List.length_drop]
        omega
    · -- plain advance branch
      subst hs'
      refine ⟨by dsimp only; rw [hlen1, ihlen], ihdealer, ihd, ?_,
        by dsimp only; exact hlast1n, ?_, ?_⟩
      · dsimp only
        rw [ihlen]
        exact Nat.mod_lt _ hn
      · intro hfin
        dsimp only at hfin
        rw [hF] at hfin
        exact absurd hfin (by simp)
      · intro _
        by_cases hcd : s.currentIdx = s.dealerIdx
        · -- the dealer just played but still holds cards: a new cycle begins
          refine ⟨H - 1, ?_⟩
          intro i hi
          dsimp only at hi ⊢
          rw [hlen1, ihlen] at hi
          rw [hlen1, ihlen]
          have hds : distTo s.dealerIdx n ((s.currentIdx + 1) % n) = n - 1 := by
            rw [hcd]
            exact distTo_dealer_succ s.dealerIdx n (by omega)
          have hdi : distTo s.dealerIdx n i < n := distTo_lt s.dealerIdx n i (by omega) hi
          rw [if_neg (by omega)]
          by_cases hieq : i = s.currentIdx
          · rw [hieq, hcurhand, List.length_erase_of_mem hm, hcurH]
            omega
          · rw [hother i default hieq]
            have hival := hH i (by omega)
            have hdcur : distTo s.dealerIdx s.players.length s.currentIdx = 0 := by
              rw [hcd]
              simp [distTo]
            have hne0 : distTo s.dealerIdx s.players.length i ≠ 0 := by
              intro h0
              have hid := (distTo_eq_zero s.dealerIdx s.players.length i
                (by omega) (by omega)).mp h0
              rw [← hcd] at hid
              exact hieq hid
            rw [hdcur, if_pos (by omega)] at hival
            rw [hival]
            omega
        · -- mid-cycle advance
          refine ⟨H, ?_⟩
          intro i hi
          dsimp only at hi ⊢
          rw [hlen1, ihlen] at hi
          rw [hlen1]
          have hdrop : distTo s.dealerIdx s.players.length
              ((s.currentIdx + 1) % s.players.length) =
              distTo s.dealerIdx s.players.length s.currentIdx - 1 :=
            distTo_succ s.dealerIdx s.players.length s.currentIdx (by omega) (by omega) hcd
          have hcpos : distTo s.dealerIdx s.players.length s.currentIdx ≠ 0 := by
            intro h0
            exact hcd ((distTo_eq_zero s.dealerIdx s.players.length s.currentIdx
              (by omega) (by omega)).mp h0)
          rw [hdrop]
          by_cases hieq : i = s.currentIdx
          · rw [hieq, hcurhand, List.length_erase_of_mem hm, hcurH]
            rw [if_pos (by omega)]
          · rw [hother i default hieq]
            have hival := hH i (by omega)
            rw [hival]
            have hneq : distTo s.dealerIdx s.players.length i ≠
                distTo s.dealerIdx s.players.length s.currentIdx :=
              distTo_inj s.dealerIdx s.players.length i s.currentIdx
                (by omega) (by omega) (by omega) hieq
            by_cases hgt : distTo s.dealerIdx s.players.length s.currentIdx <
                distTo s.dealerIdx s.players.length i
            · rw [if_pos hgt, if_pos (by omega)]
            · rw [if_neg hgt, if_neg (by omega)]

/-- Card-count bookkeeping for a successful construction from fresh
players: all cards of the initial deck are distributed among deck, hands,
mesa and piles. -/
theorem rondaInit_total {n d : Nat} {deck : List Card} {s : Ronda}
    (hd : d < n) (h : rondaInit (freshPlayers n) d deck = Except.ok s) :
    totalCards s = deck.length := by
  obtain ⟨h4, ps2, deck2, hDH, hs⟩ := rondaInit_ok_inv h
  have hfreshH : ((freshPlayers n).map (fun p => p.hand.length)).sum = 0 := by
    unfold freshPlayers
    simp [show (default : PlayerState).hand = [] from rfl]
  have hfreshP : ((freshPlayers n).map (fun p => p.pila.length)).sum = 0 := by
    unfold freshPlayers
    simp [show (default : PlayerState).pila = [] from rfl]
  subst hs
  unfold totalCards
  dsimp only
  by_cases hesc : ((deck.take 4).map Card.value).sum = 15
  · rw [if_pos hesc] at hDH ⊢
    obtain ⟨hsum, hpil⟩ := dealHands_sums hDH
    have hH1 : ((modifyAt (fun p =>
        { p with pila := p.pila ++ deck.take 4, escobas := p.escobas + 1 }) d
        (freshPlayers n)).map (fun p => p.hand.length)).sum = 0 := by
      rw [modifyAt_map_congr (fun p => p.hand.length) (fun p =>
        { p with pila := p.pila ++ deck.take 4, escobas := p.escobas + 1 }) d
        (freshPlayers n) (fun a => rfl)]
      exact hfreshH
    have hP1 : ((modifyAt (fun p =>
        { p with pila := p.pila ++ deck.take 4, escobas := p.escobas + 1 }) d
        (freshPlayers n)).map (fun p => p.pila.length)).sum = 4 := by
      have hms := modifyAt_map_sum (fun p => p.pila.length) (fun p =>
        { p with pila := p.pila ++ deck.take 4, escobas := p.escobas + 1 }) d
        (freshPlayers n) default (by simp [freshPlayers]; exact hd)
      rw [freshPlayers_getD n d hd] at hms
      dsimp only at hms
      rw [hfreshP] at hms
      have hdp : (default : PlayerState).pila.length = 0 := rfl
      rw [hdp] at hms
      simp only [List.length_append, List.length_take] at hms
      omega
    have hP2 : (ps2.map (fun p => p.pila.length)).sum = 4 := by
      rw [hpil]
      exact hP1
    rw [hH1] at hsum
    simp only [List.length_drop] at hsum
    simp only [List.length_nil]
    omega
  · rw [if_neg hesc] at hDH ⊢
    obtain ⟨hsum, hpil⟩ := dealHands_sums hDH
    have hP2 : (ps2.map (fun p => p.pila.length)).sum = 0 := by
      rw [hpil]
      exact hfreshP
    rw [hfreshH] at hsum
    simp only [List.length_drop] at hsum
    simp only [List.length_take]
    omega

/-- Card conservation along reachable states: before termination the four
summands add up to the initial deck size; the terminating step copies the
residual mesa into the last picker's pile without clearing the mesa, so in
the finished state the sum exceeds the deck size by the residual mesa. -/
theorem reachable_total {n d : Nat} {deck0 : List Card} {s : Ronda}
    (h : Reachable n d deck0 s) :
    totalCards s =
      deck0.length + (if s.finishedFlag = true then s.mesa.length else 0) := by
  induction h with
  | init s hd hinit =>
    have ht := rondaInit_total hd hinit
    obtain ⟨h4, ps2, deck2, hDH, hs⟩ := rondaInit_ok_inv hinit
    subst hs
    rw [ht]
    rw [if_neg (by simp)]
    omega
  | step s oc mc s' hr hstep ih =>
    obtain ⟨hF, ps1, mesa1, last1, hA⟩ := play_turn_ok_start hstep
    obtain ⟨hm, hlt, hlen1, hother, hcurhand, hlast1⟩ := doAction_some hA
    obtain ⟨ihlen, ihdealer, ihd, ihcur, ihlast, ihfin, ihhands⟩ := reachable_inv hr
    have htotA := doAction_total hA
    rw [hF, if_neg (by simp)] at ih
    unfold totalCards at ih
    rcases play_turn_ok_cases hF hA hstep with
      ⟨hcd, hhe, hde, hs'⟩ | ⟨hcd, hhe, hde, ps2, deck2, hDH, hs'⟩ | ⟨hncond, hs'⟩
    · -- termination: the mesa is copied into the pile and kept on the table
      subst hs'
      have hlast1lt : last1 < ps1.length := by
        rw [hlen1, ihlen]
        rcases hlast1 with h1 | h1 <;> omega
      have hEh0 : (modifyAt (fun p => { p with pila := p.pila ++ mesa1 }) last1
          ps1).map (fun p => p.hand.length) =
          ps1.map (fun p => p.hand.length) :=
        modifyAt_map_congr (fun p => p.hand.length)
          (fun p => { p with pila := p.pila ++ mesa1 }) last1 ps1 (fun a => rfl)
      have hEh : ((modifyAt (fun p => { p with pila := p.pila ++ mesa1 }) last1
          ps1).map (fun p => p.hand.length)).sum =
          (ps1.map (fun p => p.hand.length)).sum := by rw [hEh0]
      have hEp := modifyAt_map_sum (fun p => p.pila.length)
        (fun p => { p with pila := p.pila ++ mesa1 }) last1 ps1 default hlast1lt
      dsimp only at hEp
      simp only [List.length_append] at hEp
      unfold totalCards
      dsimp only
      rw [if_pos rfl]
      omega
    · -- redeal: cards move deck → hands only
      subst hs'
      obtain ⟨hsum2, hpil2⟩ := dealHands_sums hDH
      have hP2 : (ps2.map (fun p => p.pila.length)).sum =
          (ps1.map (fun p => p.pila.length)).sum := by rw [hpil2]
      unfold totalCards
      dsimp only
      rw [hF, if_neg (by simp)]
      omega
    · -- plain advance: the action is the only movement
      subst hs'
      unfold totalCards
      dsimp only
      rw [hF, if_neg (by simp)]
      omega

/-! Claim theorems. -/

/-- Claim C1 (amended): card conservation holds at every reachable
non-finished state: `deckRemaining + Σ|hands| + |mesa| + Σ|piles|` equals
the initial deck size.  At the finished state the terminating `play_turn`
has appended a copy of the residual mesa to the last picker's pile without
clearing the mesa, so the sum exceeds the initial deck size by exactly the
residual mesa size. -/
theorem claim_C1_conservation (n d : Nat) (deck0 : List Card) (s : Ronda)
    (hr : Reachable n d deck0 s) :
    totalCards s =
      deck0.length + (if s.is_finished = true then s.mesa.length else 0) := by
  have ht := reachable_total hr
  unfold Ronda.is_finished
  exact ht

/-- Claim C2: on a `play_turn` that leaves the dealer (as current player)
with an empty hand while the deck is empty, the call succeeds, the round is
finished, the last picker's pile gains exactly the post-action mesa
(possibly empty), and the current player is not advanced. -/
theorem claim_C2_termination (s : Ronda) (oc : Card) (mc : Option (List Card))
    (ps1 : List PlayerState) (mesa1 : List Card) (last1 : Nat)
    (hF : s.finishedFlag = false)
    (hA : doAction s oc mc = some (ps1, mesa1, last1))
    (hcd : s.currentIdx = s.dealerIdx)
    (hhe : (ps1.getD s.currentIdx default).hand = [])
    (hdk : s.deck = []) :
    (∃ s', s.play_turn oc mc = Except.ok s') ∧
    ∀ s', s.play_turn oc mc = Except.ok s' →
      s'.is_finished = true ∧
      s'.players = modifyAt (fun p => { p with pila := p.pila ++ mesa1 }) last1 ps1 ∧
      s'.currentIdx = s.currentIdx := by
  have heq := play_turn_eq hF hA
  rw [if_pos ⟨hcd, hhe, hdk⟩] at heq
  refine ⟨⟨_, heq⟩, ?_⟩
  intro s' h'
  rw [heq] at h'
  injection h' with h2
  subst h2
  exact ⟨rfl, rfl, rfl⟩

/-- Claim C3: once `is_finished()` is true every `play_turn` call fails with
`RondaFinishedError`; since the model returns the error without producing a
successor state, no state component can change, and every successful step
starts from a non-finished state, so the finished flag never reverts. -/
theorem claim_C3_post_finish_guard : ∀ (s : Ronda) (oc : Card) (mc : Option (List Card)),
    (s.is_finished = true → s.play_turn oc mc = Except.error RondaError.rondaFinished) ∧
    (∀ s', s.play_turn oc mc = Except.ok s' → s.is_finished = false) := by
  intro s oc mc
  constructor
  · intro hf
    exact play_turn_finished oc mc hf
  · intro s' h'
    have hF := (play_turn_ok_start h').1
    unfold Ronda.is_finished
    exact hF

/-- Claim C4: if the 4 cards first dealt to the mesa sum to 15, then after
construction `dealt_escoba()` is true, the mesa is empty and the dealer's
pile holds exactly those 4 cards with one escoba; otherwise
`dealt_escoba()` is false and the mesa keeps the 4 dealt cards.  The check
runs only at construction: no successful `play_turn` ever changes the
flag. -/
theorem claim_C4_escoba_on_deal (n d : Nat) (deck : List Card) (s : Ronda)
    (hd : d < n) (h : rondaInit (freshPlayers n) d deck = Except.ok s) :
    (((deck.take 4).map Card.value).sum = 15 →
      s.dealt_escoba = true ∧ s.mesa = [] ∧
      (s.players.getD d default).pila = deck.take 4 ∧
      (s.players.getD d default).escobas = 1) ∧
    (((deck.take 4).map Card.value).sum ≠ 15 →
      s.dealt_escoba = false ∧ s.mesa = deck.take 4) ∧
    (∀ (t : Ronda) (oc : Card) (mc : Option (List Card)) (t' : Ronda),
      t.play_turn oc mc = Except.ok t' → t'.dealt_escoba = t.dealt_escoba) := by
  obtain ⟨h4, ps2, deck2, hDH, hs⟩ := rondaInit_ok_inv h
  refine ⟨?_, ?_, ?_⟩
  · intro hsum
    rw [if_pos hsum] at hDH
    have hlen1 : (modifyAt (fun p =>
        { p with pila := p.pila ++ deck.take 4, escobas := p.escobas + 1 }) d
        (freshPlayers n)).length = n := by
      rw [modifyAt_length]
      simp [freshPlayers]
    subst hs
    refine ⟨by unfold Ronda.dealt_escoba; dsimp only; rw [hsum]; simp, ?_, ?_, ?_⟩
    · dsimp only
      rw [if_pos hsum]
    · dsimp only
      rw [dealHands_getD hDH d (by rw [hlen1]; exact hd)]
      dsimp only
      rw [modifyAt_getD_self _ _ _ _ (by simp [freshPlayers]; exact hd)]
      rw [freshPlayers_getD n d hd]
      rfl
    · dsimp only
      rw [dealHands_getD hDH d (by rw [hlen1]; exact hd)]
      dsimp only
      rw [modifyAt_getD_self _ _ _ _ (by simp [freshPlayers]; exact hd)]
      rw [freshPlayers_getD n d hd]
      rfl
  · intro hsum
    rw [if_neg hsum] at hDH
    subst hs
    refine ⟨by unfold Ronda.dealt_escoba; dsimp only; exact decide_eq_false hsum, ?_⟩
    dsimp only
    rw [if_neg hsum]
  · intro t oc mc t' h'
    obtain ⟨hF, ps1, mesa1, last1, hA⟩ := play_turn_ok_start h'
    rcases play_turn_ok_cases hF hA h' with
      ⟨_, _, _, hs'⟩ | ⟨_, _, _, ps3, deck3, _, hs'⟩ | ⟨_, hs'⟩ <;>
      (subst hs'; rfl)

/-- Claim C9: on the terminating `play_turn` the residual mesa cards are
appended to the last picker's pile but the mesa field itself is left
unchanged, so `current_mesa()` on the finished state still returns the
residue (which may be non-empty) rather than an empty list. -/
theorem claim_C9_mesa_kept (s : Ronda) (oc : Card) (mc : Option (List Card))
    (ps1 : List PlayerState) (mesa1 : List Card) (last1 : Nat)
    (hF : s.finishedFlag = false)
    (hA : doAction s oc mc = some (ps1, mesa1, last1))
    (hcd : s.currentIdx = s.dealerIdx)
    (hhe : (ps1.getD s.currentIdx default).hand = [])
    (hdk : s.deck = []) :
    ∀ s', s.play_turn oc mc = Except.ok s' →
      s'.mesa = mesa1 ∧ s'.current_mesa = mesa1 ∧ s'.is_finished = true ∧
      s'.players = modifyAt (fun p => { p with pila := p.pila ++ mesa1 }) last1 ps1 := by
  have heq := play_turn_eq hF hA
  rw [if_pos ⟨hcd, hhe, hdk⟩] at heq
  intro s' h'
  rw [heq] at h'
  injection h' with h2
  subst h2
  exact ⟨rfl, rfl, rfl, rfl⟩

/-- Claim C10: the current-player index is always a valid index into the
players list; on the terminating call it is not advanced, so every finished
reachable state has the dealer as current player. -/
theorem claim_C10_current_player :
    (∀ (n d : Nat) (deck0 : List Card) (s : Ronda), Reachable n d deck0 s →
      s.currentIdx < s.players.length ∧
      (s.is_finished = true → s.currentIdx = s.dealerIdx ∧
        s.current_player = s.players.getD s.dealerIdx default)) ∧
    (∀ (s : Ronda) (oc : Card) (mc : Option (List Card)) (s' : Ronda),
      s.play_turn oc mc = Except.ok s' → s'.is_finished = true →
      s'.currentIdx = s.currentIdx) := by
  constructor
  · intro n d deck0 s hr
    obtain ⟨ihlen, ihdealer, ihd, ihcur, ihlast, ihfin, ihhands⟩ := reachable_inv hr
    refine ⟨by omega, ?_⟩
    intro hfin
    have hcd := ihfin hfin
    refine ⟨hcd, ?_⟩
    unfold Ronda.current_player
    rw [hcd]
  · intro s oc mc s' h' hfin
    obtain ⟨hF, ps1, mesa1, last1, hA⟩ := play_turn_ok_start h'
    rcases play_turn_ok_cases hF hA h' with
      ⟨_, _, _, hs'⟩ | ⟨_, _, _, ps2, deck2, _, hs'⟩ | ⟨_, hs'⟩
    · subst hs'
      rfl
    · subst hs'
      unfold Ronda.is_finished at hfin
      dsimp only at hfin
      rw [hF] at hfin
      exact absurd hfin (by simp)
    · subst hs'
      unfold Ronda.is_finished at hfin
      dsimp only at hfin
      rw [hF] at hfin
      exact absurd hfin (by simp)

theorem getD_eq_get {α : Type} (l : List α) (d0 : α) (i : Nat) (h : i < l.length) :
    l.getD i d0 = l.get ⟨i, h⟩ := by
  induction l generalizing i with
  | nil => simp at h
  | cons a t ih =>
    cases i with
    | zero => rfl
    | succ j =>
      simp only [List.getD_cons_succ]
      simpa using ih j (by simpa using h)

/-- In a reachable state, if the current player is the dealer and the
dealer's hand just emptied, every player's hand is empty: the dealer is the
last player of each hand cycle. -/
theorem hands_all_empty {n d : Nat} {deck0 : List Card} {s : Ronda}
    (hr : Reachable n d deck0 s) {oc : Card} {mc : Option (List Card)}
    {ps1 : List PlayerState} {mesa1 : List Card} {last1 : Nat}
    (hF : s.finishedFlag = false)
    (hA : doAction s oc mc = some (ps1, mesa1, last1))
    (hcd : s.currentIdx = s.dealerIdx)
    (hhe : (ps1.getD s.currentIdx default).hand = []) :
    ∀ i, i < n → (ps1.getD i default).hand = [] := by
  obtain ⟨ihlen, ihdealer, ihd, ihcur, ihlast, ihfin, ihhands⟩ := reachable_inv hr
  obtain ⟨H, hH⟩ := ihhands hF
  obtain ⟨hm, hlt, hlen1, hother, hcurhand, hlast1⟩ := doAction_some hA
  have hcurH : ((s.players.getD s.currentIdx default).hand).length = H := by
    have hcc := hH s.currentIdx (by omega)
    simpa using hcc
  have hH1 : H = 1 := by
    have hcur1 : ((ps1.getD s.currentIdx default).hand).length = H - 1 := by
      rw [hcurhand, List.length_erase_of_mem hm, hcurH]
    rw [hhe] at hcur1
    simp only [List.length_nil] at hcur1
    have hpos : 1 ≤ H := by
      rw [← hcurH]
      exact List.length_pos.mpr (by rintro he; rw [he] at hm; simp at hm)
    omega
  intro i hi
  by_cases hieq : i = s.currentIdx
  · rw [hieq]
    exact hhe
  · rw [hother i default hieq]
    have hival := hH i (by omega)
    have hdcur : distTo s.dealerIdx s.players.length s.currentIdx = 0 := by
      rw [hcd]
      simp [distTo]
    have hne0 : distTo s.dealerIdx s.players.length i ≠ 0 := by
      intro h0
      have hid := (distTo_eq_zero s.dealerIdx s.players.length i
        (by omega) (by omega)).mp h0
      rw [← hcd] at hid
      exact hieq hid
    rw [hdcur, if_pos (by omega), hH1] at hival
    exact List.length_eq_zero.mp (by omega)

/-- Claim C5: during a successful `play_turn` from a reachable state, a
fresh 3-card hand is dealt to every player (in the fixed original player
order: player `i` receives the deck segment starting at `3 * i`) exactly
when the current player is the dealer, the dealer's hand emptied on the
action, and the deck is non-empty; at that moment every player's hand is
empty, and afterwards every hand has exactly 3 cards.  In every other case
no hand changes beyond the action itself. -/
theorem claim_C5_redeal (n d : Nat) (deck0 : List Card) (s : Ronda)
    (hr : Reachable n d deck0 s) (oc : Card) (mc : Option (List Card))
    (ps1 : List PlayerState) (mesa1 : List Card) (last1 : Nat) (s' : Ronda)
    (hA : doAction s oc mc = some (ps1, mesa1, last1))
    (hstep : s.play_turn oc mc = Except.ok s') :
    ((s.currentIdx = s.dealerIdx ∧ (ps1.getD s.currentIdx default).hand = [] ∧
        s.deck ≠ []) →
      (∀ p ∈ ps1, p.hand = []) ∧
      (∀ p ∈ s'.players, p.hand.length = 3) ∧
      (∀ i, i < n → (s'.players.getD i default).hand = (s.deck.drop (3 * i)).take 3)) ∧
    (¬(s.currentIdx = s.dealerIdx ∧ (ps1.getD s.currentIdx default).hand = [] ∧
        s.deck ≠ []) →
      s'.players.map PlayerState.hand = ps1.map PlayerState.hand) := by
  have hF := (play_turn_ok_start hstep).1
  obtain ⟨ihlen, ihdealer, ihd, ihcur, ihlast, ihfin, ihhands⟩ := reachable_inv hr
  obtain ⟨hm, hlt, hlen1, hother, hcurhand, hlast1⟩ := doAction_some hA
  constructor
  · rintro ⟨hcd, hhe, hde⟩
    rcases play_turn_ok_cases hF hA hstep with
      ⟨_, _, hdk, _⟩ | ⟨_, _, _, ps2, deck2, hDH, hs'⟩ | ⟨hncond, _⟩
    · exact absurd hdk hde
    · subst hs'
      have hempty := hands_all_empty hr hF hA hcd hhe
      have hlen2 : ps2.length = n := by rw [dealHands_length hDH, hlen1, ihlen]
      obtain ⟨hle, _⟩ := dealHands_deck hDH
      rw [hlen1, ihlen] at hle
      refine ⟨?_, ?_, ?_⟩
      · intro p hp
        obtain ⟨i, hget⟩ := List.mem_iff_get.mp hp
        rw [← hget, ← getD_eq_get ps1 default i.1 i.2]
        exact hempty i.1 (by have := i.2; omega)
      · dsimp only
        intro p hp
        obtain ⟨i, hget⟩ := List.mem_iff_get.mp hp
        rw [← hget, ← getD_eq_get ps2 default i.1 i.2]
        have hin : i.1 < n := by have := i.2; omega
        rw [dealHands_getD hDH i.1 (by rw [hlen1, ihlen]; exact hin)]
        dsimp only
        rw [hempty i.1 hin]
        simp only [List.nil_append, List.length_take, List.length_drop]
        omega
      · intro i hi
        dsimp only
        rw [dealHands_getD hDH i (by rw [hlen1, ihlen]; exact hi)]
        dsimp only
        rw [hempty i hi]
        rw [List.nil_append]
    · exact absurd ⟨hcd, hhe⟩ hncond
  · intro hnc
    rcases play_turn_ok_cases hF hA hstep with
      ⟨hcd, hhe, hdk, hs'⟩ | ⟨hcd, hhe, hde, ps2, deck2, hDH, hs'⟩ | ⟨hncond, hs'⟩
    · subst hs'
      dsimp only
      exact modifyAt_map_congr PlayerState.hand
        (fun p => { p with pila := p.pila ++ mesa1 }) last1 ps1 (fun a => rfl)
    · exact absurd ⟨hcd, hhe, hde⟩ hnc
    · subst hs'
      rfl

/-- Claim C6 (amended): constructing a round whose deck holds fewer than
`4 + 3 * N` cards fails with `DeckExhaustedError`.  The error is however
not exclusive to construction: a redeal inside `play_turn` on a non-empty
deck holding fewer than `3 * N` cards also fails with
`DeckExhaustedError`. -/
theorem claim_C6_deck_exhausted :
    (∀ (ps : List PlayerState) (d : Nat) (deck : List Card),
      deck.length < 4 + 3 * ps.length →
      rondaInit ps d deck = Except.error RondaError.deckExhausted) ∧
    (∀ (s : Ronda) (oc : Card) (mc : Option (List Card)) (ps1 : List PlayerState)
      (mesa1 : List Card) (last1 : Nat),
      s.finishedFlag = false → doAction s oc mc = some (ps1, mesa1, last1) →
      s.currentIdx = s.dealerIdx → (ps1.getD s.currentIdx default).hand = [] →
      s.deck ≠ [] → s.deck.length < 3 * ps1.length →
      s.play_turn oc mc = Except.error RondaError.deckExhausted) := by
  constructor
  · intro ps d deck hlen
    rcases Nat.lt_or_ge deck.length 4 with h4 | h4
    · unfold rondaInit
      rw [deal_none h4]
    · rw [rondaInit_eq ps d deck h4]
      have hlen1 : (if (((deck.take 4).map Card.value).sum = 15) then
          modifyAt (fun p =>
            { p with pila := p.pila ++ deck.take 4, escobas := p.escobas + 1 }) d ps
        else ps).length = ps.length := by
        split
        · rw [modifyAt_length]
        · rfl
      rw [dealHands_none (by rw [hlen1]; simp only [List.length_drop]; omega)]
  · intro s oc mc ps1 mesa1 last1 hF hA hcd hhe hde hlen
    have heq := play_turn_eq hF hA
    rw [if_neg (fun hc => hde hc.2.2), if_pos ⟨hcd, hhe⟩,
      dealHands_none hlen] at heq
    exact heq

/-- Claim C7: on a non-finished state, a `play_turn` whose own card is not
in the current player's hand, or that names a mesa card not currently on
the mesa, fails with `InvalidMoveError`; the model returns the error
without producing a successor state, so no partial mutation is committed. -/
theorem claim_C7_invalid_move (s : Ronda) (oc : Card) (mc : Option (List Card))
    (hF : s.is_finished = false) :
    ((mc = none ∨ mc = some []) →
      oc ∉ (s.players.getD s.currentIdx default).hand →
      s.play_turn oc mc = Except.error RondaError.invalidMove) ∧
    (∀ l, mc = some l → l ≠ [] →
      (oc ∉ (s.players.getD s.currentIdx default).hand ∨ ∃ c ∈ l, c ∉ s.mesa) →
      s.play_turn oc mc = Except.error RondaError.invalidMove) := by
  have hF' : s.finishedFlag = false := hF
  constructor
  · intro hmc hnm
    rcases hmc with hmc | hmc
    · subst hmc
      have hA : doAction s oc none = none := by
        unfold doAction
        rw [place_none hnm]
      exact play_turn_invalid hF' hA
    · subst hmc
      have hA : doAction s oc (some []) = none := by
        unfold doAction
        dsimp only
        rw [place_none hnm]
      exact play_turn_invalid hF' hA
  · intro l hmc hne hbad
    subst hmc
    cases l with
    | nil => exact absurd rfl hne
    | cons c cs =>
      have hA : doAction s oc (some (c :: cs)) = none := by
        unfold doAction
        dsimp only
        rw [pick_none ?hcond]
        case hcond =>
          rintro ⟨hmem, hsub, hnd⟩
          rcases hbad with hbad | ⟨x, hx, hxm⟩
          · exact hbad hmem
          · exact hxm (hsub x hx)
      exact play_turn_invalid hF' hA

/-- Claim C8: after construction the current player is the one at index
`(dealer + 1) mod N` and the last picker is initialized to the dealer; a
successful capture (non-empty selection) sets the last picker to the acting
player, a drop leaves it unchanged, and in every reachable state the last
picker is a valid player index (never null). -/
theorem claim_C8_turn_order :
    (∀ (ps : List PlayerState) (d : Nat) (deck : List Card) (s : Ronda),
      rondaInit ps d deck = Except.ok s →
      s.currentIdx = (d + 1) % ps.length ∧ s.lastPickedUp = d) ∧
    (∀ (s : Ronda) (oc c : Card) (cs : List Card) (s' : Ronda),
      s.play_turn oc (some (c :: cs)) = Except.ok s' →
      s'.lastPickedUp = s.currentIdx) ∧
    (∀ (s : Ronda) (oc : Card) (mc : Option (List Card)) (s' : Ronda),
      (mc = none ∨ mc = some []) → s.play_turn oc mc = Except.ok s' →
      s'.lastPickedUp = s.lastPickedUp) ∧
    (∀ (n d : Nat) (deck0 : List Card) (s : Ronda), Reachable n d deck0 s →
      s.lastPickedUp < n) := by
  refine ⟨?_, ?_, ?_, ?_⟩
  · intro ps d deck s h
    obtain ⟨h4, ps2, deck2, hDH, hs⟩ := rondaInit_ok_inv h
    subst hs
    exact ⟨rfl, rfl⟩
  · intro s oc c cs s' h'
    obtain ⟨hF, ps1, mesa1, last1, hA⟩ := play_turn_ok_start h'
    have hlast : last1 = s.currentIdx := by
      obtain ⟨p1, hps, hcase⟩ := doAction_inv hA
      rcases hcase with ⟨hmc, _⟩ | ⟨c2, cs2, hmc, _, _, _, _, _, hl⟩
      · rcases hmc with hmc | hmc <;> exact absurd hmc (by simp)
      · exact hl
    rcases play_turn_ok_cases hF hA h' with
      ⟨_, _, _, hs'⟩ | ⟨_, _, _, ps2, deck2, _, hs'⟩ | ⟨_, hs'⟩ <;>
      (subst hs'; exact hlast)
  · intro s oc mc s' hmc h'
    obtain ⟨hF, ps1, mesa1, last1, hA⟩ := play_turn_ok_start h'
    have hlast : last1 = s.lastPickedUp := by
      obtain ⟨p1, hps, hcase⟩ := doAction_inv hA
      rcases hcase with ⟨_, _, _, _, hl⟩ | ⟨c2, cs2, hmc2, _⟩
      · exact hl
      · rcases hmc with hmc | hmc <;> (rw [hmc] at hmc2; exact absurd hmc2 (by simp))
    rcases play_turn_ok_cases hF hA h' with
      ⟨_, _, _, hs'⟩ | ⟨_, _, _, ps2, deck2, _, hs'⟩ | ⟨_, hs'⟩ <;>
      (subst hs'; exact hlast)
  · intro n d deck0 s hr
    exact (reachable_inv hr).2.2.2.2.1

/-! Witnesses and counterexamples on concrete games. -/

/-- The action of the terminating move in the ten-card game. -/
def act5 : List PlayerState × List Card × Nat :=
  (doAction st5 (cardOne 6) none).getD ([], [], 0)

/-- The action of the opening move in the ten-card game. -/
def act0 : List PlayerState × List Card × Nat :=
  (doAction st0 (cardOne 7) none).getD ([], [], 0)

/-- Construction from the deck whose opening four cards sum to 15. -/
def stE : Ronda := (rondaInit (freshPlayers 2) 0 deckEsc).toOption.getD default

/-- Two players, dealer 0, sixteen cards: after the first hand cycle the
deck still holds the six cards a redeal needs. -/
def deck16 : List Card := deckOnes 16

def w0 : Ronda := (rondaInit (freshPlayers 2) 0 deck16).toOption.getD default

def w1 : Ronda := stepD w0 (cardOne 7) none

def w2 : Ronda := stepD w1 (cardOne 4) none

def w3 : Ronda := stepD w2 (cardOne 8) none

def w4 : Ronda := stepD w3 (cardOne 5) none

def w5 : Ronda := stepD w4 (cardOne 9) none

def w6 : Ronda := stepD w5 (cardOne 6) none

/-- The action of the redeal-triggering move in the sixteen-card game. -/
def actw5 : List PlayerState × List Card × Nat :=
  (doAction w5 (cardOne 6) none).getD ([], [], 0)

/-- Counterexample to claim C1 as stated: the finished state `st6` is
reachable from a ten-card deck, yet deck + hands + mesa + piles hold 20
cards — the ten residual mesa cards also sit, as copies, in the last
picker's pile. -/
theorem claim_C1_counterexample :
    Reachable 2 0 deck10 st6 ∧ totalCards st6 = 20 ∧ deck10.length = 10 ∧
    st6.is_finished = true ∧ totalCards st6 ≠ deck10.length := by
  have h0 : rondaInit (freshPlayers 2) 0 deck10 = Except.ok st0 := by decide
  have r0 : Reachable 2 0 deck10 st0 := Reachable.init st0 (by decide) h0
  have r1 : Reachable 2 0 deck10 st1 :=
    Reachable.step st0 (cardOne 7) none st1 r0 (by decide)
  have r2 : Reachable 2 0 deck10 st2 :=
    Reachable.step st1 (cardOne 4) none st2 r1 (by decide)
  have r3 : Reachable 2 0 deck10 st3 :=
    Reachable.step st2 (cardOne 8) none st3 r2 (by decide)
  have r4 : Reachable 2 0 deck10 st4 :=
    Reachable.step st3 (cardOne 5) none st4 r3 (by decide)
  have r5 : Reachable 2 0 deck10 st5 :=
    Reachable.step st4 (cardOne 9) none st5 r4 (by decide)
  have r6 : Reachable 2 0 deck10 st6 :=
    Reachable.step st5 (cardOne 6) none st6 r5 (by decide)
  exact ⟨r6, by decide, by decide, by decide, by decide⟩

/-- Claim C1 witness: the conservation statement instantiated at the
freshly constructed ten-card game. -/
theorem claim_C1_witness :
    totalCards st0 =
      deck10.length + (if st0.is_finished = true then st0.mesa.length else 0) :=
  claim_C1_conservation 2 0 deck10 st0
    (Reachable.init st0 (by decide) (by decide))

/-- Claim C2 witness: the terminating move of the ten-card game. -/
theorem claim_C2_witness :
    (∃ s', st5.play_turn (cardOne 6) none = Except.ok s') ∧
    ∀ s', st5.play_turn (cardOne 6) none = Except.ok s' →
      s'.is_finished = true ∧
      s'.players =
        modifyAt (fun p => { p with pila := p.pila ++ act5.2.1 }) act5.2.2 act5.1 ∧
      s'.currentIdx = st5.currentIdx :=
  claim_C2_termination st5 (cardOne 6) none act5.1 act5.2.1 act5.2.2
    (by decide) (by decide) (by decide) (by decide) (by decide)

/-- Claim C3 witness: a call on the finished state `st6`. -/
theorem claim_C3_witness :
    st6.play_turn (cardOne 0) none = Except.error RondaError.rondaFinished :=
  (claim_C3_post_finish_guard st6 (cardOne 0) none).1 (by decide)

/-- Claim C4 witness: the escoba branch on the deck summing to 15. -/
theorem claim_C4_witness :
    stE.dealt_escoba = true ∧ stE.mesa = [] ∧
    (stE.players.getD 0 default).pila = deckEsc.take 4 ∧
    (stE.players.getD 0 default).escobas = 1 :=
  (claim_C4_escoba_on_deal 2 0 deckEsc stE (by decide) (by decide)).1 (by decide)

/-- Claim C5 witness: the redeal triggered in the sixteen-card game deals
player 0 the next three deck cards as its new hand. -/
theorem claim_C5_witness :
    (w6.players.getD 0 default).hand = (w5.deck.drop (3 * 0)).take 3 := by
  have h0 : rondaInit (freshPlayers 2) 0 deck16 = Except.ok w0 := by decide
  have r0 : Reachable 2 0 deck16 w0 := Reachable.init w0 (by decide) h0
  have r1 : Reachable 2 0 deck16 w1 :=
    Reachable.step w0 (cardOne 7) none w1 r0 (by decide)
  have r2 : Reachable 2 0 deck16 w2 :=
    Reachable.step w1 (cardOne 4) none w2 r1 (by decide)
  have r3 : Reachable 2 0 deck16 w3 :=
    Reachable.step w2 (cardOne 8) none w3 r2 (by decide)
  have r4 : Reachable 2 0 deck16 w4 :=
    Reachable.step w3 (cardOne 5) none w4 r3 (by decide)
  have r5 : Reachable 2 0 deck16 w5 :=
    Reachable.step w4 (cardOne 9) none w5 r4 (by decide)
  exact ((claim_C5_redeal 2 0 deck16 w5 r5 (cardOne 6) none actw5.1 actw5.2.1
    actw5.2.2 w6 (by decide) (by decide)).1 (by decide)).2.2 0 (by decide)

/-- Counterexample to claim C6 as stated: construction from a twelve-card
deck succeeds, and a later `play_turn` (the redeal after the first hand
cycle, with two cards left in the deck) fails with `DeckExhaustedError` —
the error is not construction-time only. -/
theorem claim_C6_counterexample :
    (rondaInit (freshPlayers 2) 0 deck12).toOption.isSome = true ∧
    Reachable 2 0 deck12 r2st5 ∧
    r2st5.play_turn (cardOne 6) none = Except.error RondaError.deckExhausted := by
  have h0 : rondaInit (freshPlayers 2) 0 deck12 = Except.ok r2st0 := by decide
  have r0 : Reachable 2 0 deck12 r2st0 := Reachable.init r2st0 (by decide) h0
  have r1 : Reachable 2 0 deck12 r2st1 :=
    Reachable.step r2st0 (cardOne 7) none r2st1 r0 (by decide)
  have r2 : Reachable 2 0 deck12 r2st2 :=
    Reachable.step r2st1 (cardOne 4) none r2st2 r1 (by decide)
  have r3 : Reachable 2 0 deck12 r2st3 :=
    Reachable.step r2st2 (cardOne 8) none r2st3 r2 (by decide)
  have r4 : Reachable 2 0 deck12 r2st4 :=
    Reachable.step r2st3 (cardOne 5) none r2st4 r3 (by decide)
  have r5 : Reachable 2 0 deck12 r2st5 :=
    Reachable.step r2st4 (cardOne 9) none r2st5 r4 (by decide)
  exact ⟨by decide, r5, by decide⟩

/-- Claim C6 witness: construction from a five-card deck with two players
(needing 4 + 6 cards) fails with `DeckExhaustedError`. -/
theorem claim_C6_witness :
    rondaInit (freshPlayers 2) 0 (deckOnes 5) =
      Except.error RondaError.deckExhausted :=
  claim_C6_deck_exhausted.1 (freshPlayers 2) 0 (deckOnes 5) (by decide)

/-- Claim C7 witness: a card that is in nobody's hand is rejected. -/
theorem claim_C7_witness :
    st0.play_turn (cardOne 99) none = Except.error RondaError.invalidMove :=
  (claim_C7_invalid_move st0 (cardOne 99) none (by decide)).1 (Or.inl rfl)
    (by decide)

/-- Claim C8 witness: after the ten-card construction the first player is
the one clockwise of dealer 0, and the last picker is the dealer. -/
theorem claim_C8_witness :
    st0.currentIdx = (0 + 1) % (freshPlayers 2).length ∧ st0.lastPickedUp = 0 :=
  claim_C8_turn_order.1 (freshPlayers 2) 0 deck10 st0 (by decide)

/-- Claim C9 witness: the ten residual mesa cards are still returned by
`current_mesa` on the finished state. -/
theorem claim_C9_witness :
    st6.mesa = act5.2.1 ∧ st6.current_mesa = act5.2.1 ∧ st6.is_finished = true ∧
    st6.players =
      modifyAt (fun p => { p with pila := p.pila ++ act5.2.1 }) act5.2.2 act5.1 :=
  claim_C9_mesa_kept st5 (cardOne 6) none act5.1 act5.2.1 act5.2.2
    (by decide) (by decide) (by decide) (by decide) (by decide) st6 (by decide)

/-- Claim C10 witness: the terminating move of the ten-card game does not
advance the current player. -/
theorem claim_C10_witness : st6.currentIdx = st5.currentIdx :=
  claim_C10_current_player.2 st5 (cardOne 6) none st6 (by decide) (by decide)
